import Mathlib

/-
  Shallow embedding of the vanity-name registry pallet
  (src/pallets/vanity-registry/src/lib.rs) together with proofs about its
  commit-reveal protocol, collateral accounting and block-finalization sweep.

  Modelling choices:
  * `AccountId`, `Hash`, `Name`, `BlockNumber` are `Nat` (all are opaque,
    equality-comparable handles in the source; the mock runtime instantiates
    them with `u64`, `H256`, `Vec<u8>`, `u64`).
  * The two storage maps `LockPeriods` and `Committers`, and the per-account currency lock table under the lock identifier of the module, are modelled
    as association lists with unique keys maintained by construction.
  * `Balance` is `Nat`; the state machine uses exact arithmetic.  The
    fixed-width (`u64`, as in the mock runtime) version of the
    `update_locked_fund` amount computation is modelled separately as
    `amountToLockU64` for the numerical claims.
  * Dispatchable calls return `Except DispatchError (State × List Event)`.
    In the source every `ensure!` precedes every storage write, so a failed
    call leaves the state unchanged; `applyOp` realizes that semantics.
-/

namespace VanityRegistry

abbrev AccountId := Nat
abbrev Hash := Nat
abbrev Name := Nat
abbrev BlockNumber := Nat
abbrev Balance := Nat

/-- The period during which a fund for a commit will be locked
(source `struct LockPeriod { begin, end }`). -/
structure LockPeriod where
  begin : BlockNumber
  end_ : BlockNumber
deriving DecidableEq, Repr

instance : Inhabited LockPeriod := ⟨⟨0, 0⟩⟩

/-- An account with a commit (source `struct Committer { id, commit }`). -/
structure Committer where
  id : AccountId
  commit : Hash
deriving DecidableEq, Repr

/-- Runtime configuration: `RegisterPeriod`, `FundToLock` and the hasher
behind `hash_of` (the source function `T::Hashing::hash_of` applied to
`encode(id) ++ encode(name)`). -/
structure Config where
  registerPeriod : BlockNumber
  fundToLock : Balance
  hashOf : AccountId → Name → Hash

/-- Module state: the `LockPeriods` double map, the `Committers` map and the
currency's lock table for this module's lock identifier. -/
structure State where
  lockPeriods : List ((AccountId × Hash) × LockPeriod)
  committers : List (Name × Committer)
  locks : List (AccountId × Balance)
deriving DecidableEq

def State.empty : State := ⟨[], [], []⟩

/-- Association-list lookup (first entry with the given key). -/
def alookup {α β : Type} [DecidableEq α] (k : α) : List (α × β) → Option β
  | [] => none
  | e :: l => if e.1 = k then some e.2 else alookup k l

/-- Remove every entry with the given key. -/
def aremove {α β : Type} [DecidableEq α] (k : α) : List (α × β) → List (α × β)
  | [] => []
  | e :: l => if e.1 = k then aremove k l else e :: aremove k l

/-- Insert, overwriting any previous entry with the same key. -/
def ainsert {α β : Type} [DecidableEq α] (k : α) (v : β) (l : List (α × β)) :
    List (α × β) :=
  (k, v) :: aremove k l

/-- Number of `LockPeriods` rows for the given account
(source `LockPeriods::iter_prefix_values(id).count()`). -/
def activeCommits (a : AccountId) : List ((AccountId × Hash) × LockPeriod) → Nat
  | [] => 0
  | e :: l => (if e.1.1 = a then 1 else 0) + activeCommits a l

/-- `LockPeriods::get` with its value-query default. -/
def getLockPeriod (s : State) (id : AccountId) (h : Hash) : LockPeriod :=
  (alookup (id, h) s.lockPeriods).getD default

inductive Event where
  | RegisterSucceeded (a : AccountId) (n : Name) (prev : Option AccountId)
  | NameFreed (n : Name)
deriving DecidableEq, Repr

inductive DispatchError where
  | BadOrigin
  | NameNotFound
  | NameAlreadyTaken
  | NameNotOwned
  | CommitNotFound
deriving DecidableEq, Repr

instance {ε α : Type} [DecidableEq ε] [DecidableEq α] :
    DecidableEq (Except ε α) := fun x y =>
  match x, y with
  | Except.ok a, Except.ok b =>
      if h : a = b then Decidable.isTrue (by rw [h])
      else Decidable.isFalse (by intro hc; cases hc; exact h rfl)
  | Except.error a, Except.error b =>
      if h : a = b then Decidable.isTrue (by rw [h])
      else Decidable.isFalse (by intro hc; cases hc; exact h rfl)
  | Except.ok _, Except.error _ => Decidable.isFalse (by intro hc; cases hc)
  | Except.error _, Except.ok _ => Decidable.isFalse (by intro hc; cases hc)

/-- A transaction origin: `some a` is a signed origin, `none` is any origin
rejected by `ensure_signed`. -/
abbrev Origin := Option AccountId

def ensureSigned (o : Origin) : Except DispatchError AccountId :=
  match o with
  | some a => Except.ok a
  | none => Except.error DispatchError.BadOrigin

/-- Source `update_locked_fund`: set the lock to
`FundToLock * number of commits`, or remove the lock when there are none. -/
def updateLockedFund (cfg : Config) (id : AccountId) (s : State) : State :=
  let k := activeCommits id s.lockPeriods
  if 0 < k then
    { s with locks := ainsert id (cfg.fundToLock * k) s.locks }
  else
    { s with locks := aremove id s.locks }

/-- Source `commit`: record `LockPeriods[who, hash] = {begin: now, end: now + RegisterPeriod}`
and refresh the lock. -/
def commit (cfg : Config) (now : BlockNumber) (o : Origin) (hash : Hash)
    (s : State) : Except DispatchError (State × List Event) :=
  match ensureSigned o with
  | Except.error e => Except.error e
  | Except.ok who =>
    let lp : LockPeriod := ⟨now, now + cfg.registerPeriod⟩
    let s := { s with lockPeriods := ainsert (who, hash) lp s.lockPeriods }
    Except.ok (updateLockedFund cfg who s, [])

/-- Source `reveal`: require a matching commit row; register the name when it
is free, replace the incumbent when the revealer committed strictly earlier,
otherwise fail with `NameAlreadyTaken`. -/
def reveal (cfg : Config) (o : Origin) (name : Name) (s : State) :
    Except DispatchError (State × List Event) :=
  match ensureSigned o with
  | Except.error e => Except.error e
  | Except.ok who =>
  let commit := cfg.hashOf who name
  if (alookup (who, commit) s.lockPeriods).isSome then
    match alookup name s.committers with
    | none =>
        Except.ok ({ s with committers := ainsert name ⟨who, commit⟩ s.committers },
          [Event.RegisterSucceeded who name none])
    | some cur =>
        let revealerBegin := (getLockPeriod s who commit).begin
        let currentBegin := (getLockPeriod s cur.id cur.commit).begin
        if revealerBegin < currentBegin then
          Except.ok ({ s with committers := ainsert name ⟨who, commit⟩ s.committers },
            [Event.RegisterSucceeded who name (some cur.id)])
        else
          Except.error DispatchError.NameAlreadyTaken
  else
    Except.error DispatchError.CommitNotFound

/-- Source `renew`: the owner extends the `end` of the backing lock period to
`now + RegisterPeriod`; `begin` is untouched. -/
def renew (cfg : Config) (now : BlockNumber) (o : Origin) (name : Name)
    (s : State) : Except DispatchError (State × List Event) :=
  match ensureSigned o with
  | Except.error e => Except.error e
  | Except.ok who =>
  match alookup name s.committers with
  | none => Except.error DispatchError.NameNotFound
  | some cm =>
    if cm.id = who then
      match alookup (cm.id, cm.commit) s.lockPeriods with
      | none => Except.error DispatchError.CommitNotFound
      | some lp =>
          let lp' : LockPeriod := ⟨lp.begin, now + cfg.registerPeriod⟩
          Except.ok
            ({ s with lockPeriods := ainsert (cm.id, cm.commit) lp' s.lockPeriods }, [])
    else
      Except.error DispatchError.NameNotOwned

/-- Source `unregister`: the owner removes both the ownership row and its
backing commit row, then the lock is refreshed and `NameFreed` is emitted. -/
def unregister (cfg : Config) (o : Origin) (name : Name) (s : State) :
    Except DispatchError (State × List Event) :=
  match ensureSigned o with
  | Except.error e => Except.error e
  | Except.ok who =>
  match alookup name s.committers with
  | none => Except.error DispatchError.NameNotFound
  | some cm =>
    if cm.id = who then
      if (alookup (cm.id, cm.commit) s.lockPeriods).isSome then
        let s := { s with lockPeriods := aremove (cm.id, cm.commit) s.lockPeriods }
        let s := { s with committers := aremove name s.committers }
        Except.ok (updateLockedFund cfg who s, [Event.NameFreed name])
      else
        Except.error DispatchError.CommitNotFound
    else
      Except.error DispatchError.NameNotOwned

/-- The rows of `LockPeriods` whose period is over at `now`
(the filter inside `remove_expired_commits`). -/
def expiredEntries (now : BlockNumber) :
    List ((AccountId × Hash) × LockPeriod) → List ((AccountId × Hash) × LockPeriod)
  | [] => []
  | e :: l =>
      if e.2.end_ ≤ now then e :: expiredEntries now l else expiredEntries now l

/-- Source `remove_expired_commits`: snapshot the expired rows, then remove
each and refresh the lock of that account; return the expired committers. -/
def removeExpiredCommits (cfg : Config) (now : BlockNumber) (s : State) :
    State × List Committer :=
  let expired := (expiredEntries now s.lockPeriods).map (fun e => Committer.mk e.1.1 e.1.2)
  let s' := expired.foldl
    (fun acc c =>
      updateLockedFund cfg c.id
        { acc with lockPeriods := aremove (c.id, c.commit) acc.lockPeriods }) s
  (s', expired)

/-- Source `associated_name`: the first name mapped to this committer. -/
def associatedName (s : State) (id : AccountId) (commit : Hash) : Option Name :=
  (s.committers.find? (fun e => e.2 = ⟨id, commit⟩)).map (fun e => e.1)

/-- The loop body of `on_finalize`: for each expired committer, drop the
associated name (when revealed) and emit `NameFreed`. -/
def sweepNames : List Committer → State → List Event → State × List Event
  | [], s, evs => (s, evs)
  | c :: rest, s, evs =>
    match associatedName s c.id c.commit with
    | some name =>
        sweepNames rest { s with committers := aremove name s.committers }
          (evs ++ [Event.NameFreed name])
    | none => sweepNames rest s evs

/-- Source `on_finalize(n)`. -/
def onFinalize (cfg : Config) (n : BlockNumber) (s : State) : State × List Event :=
  let p := removeExpiredCommits cfg n s
  sweepNames p.2 p.1 []

/-- The extrinsics plus the finalization hook, as opaque-state transitions. -/
inductive Op where
  | commit (o : Origin) (h : Hash)
  | reveal (o : Origin) (n : Name)
  | renew (o : Origin) (n : Name)
  | unregister (o : Origin) (n : Name)
  | finalize
deriving DecidableEq, Repr

/-- One dispatch: a failed call leaves the state unchanged (in the source
every check precedes every write). -/
def applyOp (cfg : Config) (now : BlockNumber) (op : Op) (s : State) : State :=
  match op with
  | Op.commit o h =>
      match commit cfg now o h s with
      | Except.ok r => r.1
      | Except.error _ => s
  | Op.reveal o n =>
      match reveal cfg o n s with
      | Except.ok r => r.1
      | Except.error _ => s
  | Op.renew o n =>
      match renew cfg now o n s with
      | Except.ok r => r.1
      | Except.error _ => s
  | Op.unregister o n =>
      match unregister cfg o n s with
      | Except.ok r => r.1
      | Except.error _ => s
  | Op.finalize => (onFinalize cfg now s).1

/-- States reachable from genesis by dispatching operations at
non-decreasing block numbers. -/
inductive Reachable (cfg : Config) : BlockNumber → State → Prop where
  | init : Reachable cfg 0 State.empty
  | step : ∀ n s n' op, Reachable cfg n s → n ≤ n' →
      Reachable cfg n' (applyOp cfg n' op s)

/-- Collision resistance of the hasher, per account: distinct names give
distinct commits. -/
def HashInj (cfg : Config) : Prop :=
  ∀ id n1 n2, cfg.hashOf id n1 = cfg.hashOf id n2 → n1 = n2

/-- The collateral invariant for one account: the stored lock is exactly
`FundToLock * active commits`, absent when the count is zero. -/
def collatOK (cfg : Config) (a : AccountId) (s : State) : Prop :=
  alookup a s.locks =
    if 0 < activeCommits a s.lockPeriods then
      some (cfg.fundToLock * activeCommits a s.lockPeriods)
    else none

/-- The state transformer iterated by `remove_expired_commits` for one
expired committer. -/
def expireStep (cfg : Config) (acc : State) (c : Committer) : State :=
  updateLockedFund cfg c.id
    { acc with lockPeriods := aremove (c.id, c.commit) acc.lockPeriods }

/-- No two distinct ownership rows carry the same committer value. -/
def CommUnique (l : List (Name × Committer)) : Prop :=
  ∀ x ∈ l, ∀ y ∈ l, x.2 = y.2 → x = y

/-! ### Fixed-width model of the lock-amount computation (mock Balance = u64) -/

def U64LIMIT : Nat := 2 ^ 64

/-- The conversion `saturated_into()` of the source, taking of the commit count into the
balance type, at the mock instantiation `Balance = u64`. -/
def saturatedInto (k : Nat) : Nat := min k (U64LIMIT - 1)

/-- The amount expression of `update_locked_fund`
(`T::FundToLock::get() * num_of_commits.saturated_into()`) at the mock instantiation
`Balance = u64`: the conversion saturates, the multiplication wraps. -/
def amountToLockU64 (fundToLock k : Nat) : Nat :=
  (fundToLock * saturatedInto k) % U64LIMIT

/-- Modelled from the spec: the claimed fully saturating computation of
`k × FUND_TO_LOCK`, which can never wrap the balance type. -/
def amountToLockSat (fundToLock k : Nat) : Nat :=
  min (fundToLock * k) (U64LIMIT - 1)

/-! ### Concrete instantiation used for witnesses and counterexamples -/

/-- The mock runtime constants (`RegisterPeriod = 95`, `FundToLock = 57`)
with an additive stand-in hasher, collision-free per account. -/
def cfg0 : Config := ⟨95, 57, fun id n => id + n⟩

/-- Account 1 commits `hashOf 1 100 = 101` at block 7. -/
def sA : State := applyOp cfg0 7 (Op.commit (some 1) 101) State.empty

/-- Then account 1 reveals name 100 at block 8. -/
def sB : State := applyOp cfg0 8 (Op.reveal (some 1) 100) sA

/-- Then account 1 renews name 100 at block 9. -/
def sC : State := applyOp cfg0 9 (Op.renew (some 1) 100) sB

/-- Alternatively, after `sB`, account 2 commits `hashOf 2 100 = 102` at
block 9 (a late commit for the name account 1 already owns). -/
def sD : State := applyOp cfg0 9 (Op.commit (some 2) 102) sB

/-- Front-running scenario: account 1 commits at block 1, account 2 commits
at block 2 and reveals at block 2, temporarily claiming name 100. -/
def f1 : State := applyOp cfg0 1 (Op.commit (some 1) 101) State.empty

def f2 : State := applyOp cfg0 2 (Op.commit (some 2) 102) f1

def f3 : State := applyOp cfg0 2 (Op.reveal (some 2) 100) f2

/-! ### The inductive invariant -/

/-- Well-formedness of a state at block `now`: unique keys in both maps, the
collateral invariant, every ownership row backed by a live commit row whose
hash is the committer hash of the name, and every stored period spanning
at least `registerPeriod` with a `begin` in the past. -/
structure WF (cfg : Config) (now : BlockNumber) (s : State) : Prop where
  nodupLP : (s.lockPeriods.map Prod.fst).Nodup
  nodupCM : (s.committers.map Prod.fst).Nodup
  collat : ∀ a, collatOK cfg a s
  backed : ∀ e ∈ s.committers, (alookup (e.2.id, e.2.commit) s.lockPeriods).isSome
  chash : ∀ e ∈ s.committers, e.2.commit = cfg.hashOf e.2.id e.1
  periodLB : ∀ e ∈ s.lockPeriods, e.2.begin + cfg.registerPeriod ≤ e.2.end_
  beginLE : ∀ e ∈ s.lockPeriods, e.2.begin ≤ now

/-! ### Association-list lemmas -/

theorem alookup_mem {α β : Type} [DecidableEq α] {k : α} {v : β} :
    ∀ {l : List (α × β)}, alookup k l = some v → (k, v) ∈ l := by
  intro l
  induction l with
  | nil => intro h; simp [alookup] at h
  | cons e t ih =>
      intro h
      simp only [alookup] at h
      by_cases he : e.1 = k
      · rw [if_pos he] at h
        injection h with h2
        have hkv : (k, v) = e := by
          cases e
          simp only at he h2
          simp [he, h2]
        rw [hkv]
        exact List.mem_cons_self _ _
      · rw [if_neg he] at h
        exact List.mem_cons_of_mem _ (ih h)

theorem mem_aremove {α β : Type} [DecidableEq α] {e : α × β} {k : α} :
    ∀ {l : List (α × β)}, e ∈ aremove k l ↔ e ∈ l ∧ e.1 ≠ k := by
  intro l
  induction l with
  | nil => simp [aremove]
  | cons x t ih =>
      simp only [aremove]
      by_cases hx : x.1 = k
      · simp only [if_pos hx, ih, List.mem_cons]
        constructor
        · rintro ⟨h1, h2⟩; exact ⟨Or.inr h1, h2⟩
        · rintro ⟨h1 | h1, h2⟩
          · subst h1; exact absurd hx h2
          · exact ⟨h1, h2⟩
      · simp only [if_neg hx, List.mem_cons, ih]
        constructor
        · rintro (h | ⟨h1, h2⟩)
          · subst h; exact ⟨Or.inl rfl, hx⟩
          · exact ⟨Or.inr h1, h2⟩
        · rintro ⟨h1 | h1, h2⟩
          · exact Or.inl h1
          · exact Or.inr ⟨h1, h2⟩

theorem aremove_sublist {α β : Type} [DecidableEq α] (k : α) :
    ∀ l : List (α × β), List.Sublist (aremove k l) l := by
  intro l
  induction l with
  | nil => simp [aremove]
  | cons x t ih =>
      simp only [aremove]
      by_cases hx : x.1 = k
      · simpa [if_pos hx] using ih.cons x
      · simpa [if_neg hx] using ih.cons₂ x

theorem alookup_aremove_self {α β : Type} [DecidableEq α] (k : α) :
    ∀ l : List (α × β), alookup k (aremove k l) = none := by
  intro l
  induction l with
  | nil => simp [aremove, alookup]
  | cons x t ih =>
      simp only [aremove]
      by_cases hx : x.1 = k
      · simpa [if_pos hx] using ih
      · simpa [alookup, if_neg hx] using ih

theorem alookup_aremove_ne {α β : Type} [DecidableEq α] {a k : α} (h : a ≠ k) :
    ∀ l : List (α × β), alookup a (aremove k l) = alookup a l := by
  intro l
  induction l with
  | nil => simp [aremove]
  | cons x t ih =>
      simp only [aremove]
      by_cases hx : x.1 = k
      · have hxa : x.1 ≠ a := by rw [hx]; exact fun hc => h hc.symm
        simp only [if_pos hx, alookup, if_neg hxa]
        exact ih
      · simp only [if_neg hx, alookup]
        by_cases hxa : x.1 = a
        · simp [if_pos hxa]
        · simp only [if_neg hxa]
          exact ih

theorem alookup_ainsert_self {α β : Type} [DecidableEq α] (k : α) (v : β)
    (l : List (α × β)) : alookup k (ainsert k v l) = some v := by
  simp [ainsert, alookup]

theorem alookup_ainsert_ne {α β : Type} [DecidableEq α] {a k : α} (h : a ≠ k)
    (v : β) (l : List (α × β)) : alookup a (ainsert k v l) = alookup a l := by
  have hk : k ≠ a := fun hc => h hc.symm
  simp only [ainsert, alookup, if_neg hk]
  exact alookup_aremove_ne h l

theorem mem_ainsert {α β : Type} [DecidableEq α] {e : α × β} {k : α} {v : β}
    {l : List (α × β)} : e ∈ ainsert k v l ↔ e = (k, v) ∨ (e ∈ l ∧ e.1 ≠ k) := by
  simp only [ainsert, List.mem_cons, mem_aremove]

theorem nodup_keys_aremove {α β : Type} [DecidableEq α] {k : α}
    {l : List (α × β)} (h : (l.map Prod.fst).Nodup) :
    ((aremove k l).map Prod.fst).Nodup :=
  h.sublist ((aremove_sublist k l).map Prod.fst)

theorem nodup_keys_ainsert {α β : Type} [DecidableEq α] {k : α} (v : β)
    {l : List (α × β)} (h : (l.map Prod.fst).Nodup) :
    ((ainsert k v l).map Prod.fst).Nodup := by
  simp only [ainsert, List.map_cons, List.nodup_cons]
  refine ⟨?_, nodup_keys_aremove h⟩
  intro hk
  rcases List.mem_map.mp hk with ⟨e, he, hek⟩
  exact (mem_aremove.mp he).2 hek

theorem alookup_of_mem_nodup {α β : Type} [DecidableEq α] {k : α} {v : β} :
    ∀ {l : List (α × β)}, (l.map Prod.fst).Nodup → (k, v) ∈ l →
      alookup k l = some v := by
  intro l
  induction l with
  | nil => intro _ h; simp at h
  | cons x t ih =>
      intro hnd hm
      simp only [List.map_cons, List.nodup_cons] at hnd
      rcases List.mem_cons.mp hm with h | h
      · subst h; simp [alookup]
      · have hx : x.1 ≠ k := by
          intro hc
          exact hnd.1 (hc ▸ List.mem_map.mpr ⟨(k, v), h, rfl⟩)
        simp only [alookup, if_neg hx]
        exact ih hnd.2 h

theorem alookup_eq_none_iff {α β : Type} [DecidableEq α] {k : α} :
    ∀ {l : List (α × β)}, alookup k l = none ↔ ∀ e ∈ l, e.1 ≠ k := by
  intro l
  induction l with
  | nil => simp [alookup]
  | cons x t ih =>
      simp only [alookup]
      by_cases hx : x.1 = k
      · simp [if_pos hx, hx]
      · simp only [if_neg hx, ih, List.mem_cons]
        constructor
        · rintro h e (he | he)
          · subst he; exact hx
          · exact h e he
        · intro h e he
          exact h e (Or.inr he)

/-! ### Commit-count lemmas -/

theorem activeCommits_aremove_ne {a b : AccountId} {hsh : Hash}
    (hab : b ≠ a) : ∀ l, activeCommits a (aremove (b, hsh) l) = activeCommits a l := by
  intro l
  induction l with
  | nil => simp [aremove]
  | cons x t ih =>
      simp only [aremove]
      by_cases hx : x.1 = (b, hsh)
      · have hxa : x.1.1 ≠ a := by rw [hx]; exact hab
        simp only [if_pos hx, activeCommits, if_neg hxa, ih]
        omega
      · simp only [if_neg hx, activeCommits, ih]

theorem activeCommits_ainsert_ne {a b : AccountId} {hsh : Hash}
    (hab : b ≠ a) (v : LockPeriod) (l) :
    activeCommits a (ainsert (b, hsh) v l) = activeCommits a l := by
  simp only [ainsert, activeCommits, if_neg hab]
  simpa using activeCommits_aremove_ne hab l

theorem activeCommits_ainsert_self (a : AccountId) (hsh : Hash)
    (v : LockPeriod) (l) :
    activeCommits a (ainsert (a, hsh) v l) = activeCommits a (aremove (a, hsh) l) + 1 := by
  simp only [ainsert, activeCommits]
  simp only [if_true, eq_self_iff_true]
  omega

theorem aremove_of_not_mem {α β : Type} [DecidableEq α] {k : α} :
    ∀ {l : List (α × β)}, (∀ e ∈ l, e.1 ≠ k) → aremove k l = l := by
  intro l
  induction l with
  | nil => simp [aremove]
  | cons x t ih =>
      intro h
      have hx : x.1 ≠ k := h x (List.mem_cons_self _ _)
      simp only [aremove, if_neg hx]
      rw [ih (fun e he => h e (List.mem_cons_of_mem _ he))]

theorem activeCommits_aremove_none {a : AccountId} {hsh : Hash} {l}
    (h : alookup (a, hsh) l = none) :
    activeCommits a (aremove (a, hsh) l) = activeCommits a l := by
  rw [aremove_of_not_mem (alookup_eq_none_iff.mp h)]

theorem activeCommits_aremove_some {a : AccountId} {hsh : Hash} {p : LockPeriod} :
    ∀ {l}, (l.map Prod.fst).Nodup → alookup (a, hsh) l = some p →
      activeCommits a l = activeCommits a (aremove (a, hsh) l) + 1 := by
  intro l
  induction l with
  | nil => intro _ h; simp [alookup] at h
  | cons x t ih =>
      intro hnd h
      simp only [List.map_cons, List.nodup_cons] at hnd
      simp only [alookup] at h
      by_cases hx : x.1 = (a, hsh)
      · have ht : aremove (a, hsh) t = t := by
          refine aremove_of_not_mem ?_
          intro e he hc
          refine hnd.1 ?_
          rw [hx, ← hc]
          exact List.mem_map.mpr ⟨e, he, rfl⟩
        have hxa : x.1.1 = a := by rw [hx]
        simp only [aremove, if_pos hx, ht, activeCommits, if_pos hxa]
        omega
      · rw [if_neg hx] at h
        by_cases hxa : x.1.1 = a
        · simp only [aremove, if_neg hx, activeCommits, if_pos hxa, ih hnd.2 h]
          omega
        · simp only [aremove, if_neg hx, activeCommits, if_neg hxa, ih hnd.2 h]
          omega

theorem activeCommits_pos_of_alookup {a : AccountId} {hsh : Hash} {p : LockPeriod}
    {l} (hnd : (l.map Prod.fst).Nodup) (h : alookup (a, hsh) l = some p) :
    0 < activeCommits a l := by
  rw [activeCommits_aremove_some hnd h]
  omega

/-! ### Lemmas about `update_locked_fund` -/

theorem updateLockedFund_lockPeriods (cfg : Config) (a : AccountId) (s : State) :
    (updateLockedFund cfg a s).lockPeriods = s.lockPeriods := by
  simp only [updateLockedFund]
  split <;> rfl

theorem updateLockedFund_committers (cfg : Config) (a : AccountId) (s : State) :
    (updateLockedFund cfg a s).committers = s.committers := by
  simp only [updateLockedFund]
  split <;> rfl

theorem updateLockedFund_locks_ne (cfg : Config) {a b : AccountId} (hab : a ≠ b)
    (s : State) : alookup a (updateLockedFund cfg b s).locks = alookup a s.locks := by
  simp only [updateLockedFund]
  split
  · exact alookup_ainsert_ne hab _ _
  · exact alookup_aremove_ne hab _

theorem collatOK_updateLockedFund_self (cfg : Config) (a : AccountId) (s : State) :
    collatOK cfg a (updateLockedFund cfg a s) := by
  simp only [collatOK, updateLockedFund, updateLockedFund_lockPeriods]
  by_cases h : 0 < activeCommits a s.lockPeriods
  · simp only [if_pos h]
    exact alookup_ainsert_self _ _ _
  · simp only [if_neg h]
    exact alookup_aremove_self _ _

theorem collatOK_updateLockedFund_ne (cfg : Config) {a b : AccountId}
    (hab : a ≠ b) {s : State} (h : collatOK cfg a s) :
    collatOK cfg a (updateLockedFund cfg b s) := by
  simpa only [collatOK, updateLockedFund_lockPeriods,
    updateLockedFund_locks_ne cfg hab] using h

theorem wf_empty (cfg : Config) (now : BlockNumber) : WF cfg now State.empty := by
  refine ⟨?_, ?_, ?_, ?_, ?_, ?_, ?_⟩ <;>
    simp [State.empty, collatOK, alookup, activeCommits]

theorem wf_mono {cfg : Config} {now now' : BlockNumber} {s : State}
    (h : WF cfg now s) (hle : now ≤ now') : WF cfg now' s :=
  ⟨h.nodupLP, h.nodupCM, h.collat, h.backed, h.chash, h.periodLB,
    fun e he => le_trans (h.beginLE e he) hle⟩

/-! ### Destructuring the successful dispatches -/

theorem commit_ok {cfg : Config} {now : BlockNumber} {o : Origin} {hash : Hash}
    {s : State} {r : State × List Event}
    (h : commit cfg now o hash s = Except.ok r) :
    ∃ who, o = some who ∧
      r = (updateLockedFund cfg who
        { s with lockPeriods :=
            ainsert (who, hash) ⟨now, now + cfg.registerPeriod⟩ s.lockPeriods },
        []) := by
  cases o with
  | none => simp [commit, ensureSigned] at h
  | some who =>
      refine ⟨who, rfl, ?_⟩
      simp only [commit, ensureSigned] at h
      injection h with h1
      exact h1.symm

theorem reveal_ok {cfg : Config} {o : Origin} {name : Name} {s : State}
    {r : State × List Event} (h : reveal cfg o name s = Except.ok r) :
    ∃ who, o = some who ∧
      (alookup (who, cfg.hashOf who name) s.lockPeriods).isSome ∧
      r.1 = { s with committers := ainsert name ⟨who, cfg.hashOf who name⟩ s.committers } := by
  cases o with
  | none => simp [reveal, ensureSigned] at h
  | some who =>
      refine ⟨who, rfl, ?_⟩
      simp only [reveal, ensureSigned] at h
      by_cases hlp : (alookup (who, cfg.hashOf who name) s.lockPeriods).isSome
      · rw [if_pos hlp] at h
        refine ⟨hlp, ?_⟩
        cases hcm : alookup name s.committers with
        | none =>
            simp only [hcm] at h
            cases h
            rfl
        | some cur =>
            simp only [hcm] at h
            by_cases hlt : (getLockPeriod s who (cfg.hashOf who name)).begin <
                (getLockPeriod s cur.id cur.commit).begin
            · rw [if_pos hlt] at h
              cases h
              rfl
            · rw [if_neg hlt] at h
              cases h
      · rw [if_neg hlp] at h
        cases h

theorem renew_ok {cfg : Config} {now : BlockNumber} {o : Origin} {name : Name}
    {s : State} {r : State × List Event}
    (h : renew cfg now o name s = Except.ok r) :
    ∃ who cm lp, o = some who ∧
      alookup name s.committers = some cm ∧ cm.id = who ∧
      alookup (cm.id, cm.commit) s.lockPeriods = some lp ∧
      r = ({ s with lockPeriods := ainsert (cm.id, cm.commit) ⟨lp.begin, now + cfg.registerPeriod⟩ s.lockPeriods }, []) := by
  cases o with
  | none => simp [renew, ensureSigned] at h
  | some who =>
      simp only [renew, ensureSigned] at h
      cases hcm : alookup name s.committers with
      | none => simp only [hcm] at h; cases h
      | some cm =>
          simp only [hcm] at h
          by_cases hid : cm.id = who
          · rw [if_pos hid] at h
            cases hlp : alookup (cm.id, cm.commit) s.lockPeriods with
            | none => simp only [hlp] at h; cases h
            | some lp =>
                simp only [hlp] at h
                cases h
                exact ⟨who, cm, lp, rfl, rfl, hid, hlp, rfl⟩
          · rw [if_neg hid] at h
            cases h

theorem unregister_ok {cfg : Config} {o : Origin} {name : Name} {s : State}
    {r : State × List Event} (h : unregister cfg o name s = Except.ok r) :
    ∃ who cm, o = some who ∧
      alookup name s.committers = some cm ∧ cm.id = who ∧
      (alookup (cm.id, cm.commit) s.lockPeriods).isSome ∧
      r = (updateLockedFund cfg who { s with lockPeriods := aremove (cm.id, cm.commit) s.lockPeriods, committers := aremove name s.committers }, [Event.NameFreed name]) := by
  cases o with
  | none => simp [unregister, ensureSigned] at h
  | some who =>
      simp only [unregister, ensureSigned] at h
      cases hcm : alookup name s.committers with
      | none => simp only [hcm] at h; cases h
      | some cm =>
          simp only [hcm] at h
          by_cases hid : cm.id = who
          · rw [if_pos hid] at h
            by_cases hlp : (alookup (cm.id, cm.commit) s.lockPeriods).isSome
            · rw [if_pos hlp] at h
              cases h
              exact ⟨who, cm, rfl, rfl, hid, hlp, rfl⟩
            · rw [if_neg hlp] at h
              cases h
          · rw [if_neg hid] at h
            cases h

/-! ### Invariant preservation by the four extrinsics -/

theorem wf_commit {cfg : Config} {now now' : BlockNumber} {s : State}
    (who : AccountId) (hash : Hash) (h : WF cfg now s) (hle : now ≤ now') :
    WF cfg now'
      (updateLockedFund cfg who
        { s with lockPeriods :=
            ainsert (who, hash) ⟨now', now' + cfg.registerPeriod⟩ s.lockPeriods }) := by
  set s2 : State :=
    { s with lockPeriods :=
        ainsert (who, hash) ⟨now', now' + cfg.registerPeriod⟩ s.lockPeriods } with hs2
  have hlp2 : s2.lockPeriods =
      ainsert (who, hash) ⟨now', now' + cfg.registerPeriod⟩ s.lockPeriods := rfl
  refine ⟨?_, ?_, ?_, ?_, ?_, ?_, ?_⟩
  · rw [updateLockedFund_lockPeriods, hlp2]
    exact nodup_keys_ainsert _ h.nodupLP
  · rw [updateLockedFund_committers]
    exact h.nodupCM
  · intro a
    by_cases ha : a = who
    · subst ha
      exact collatOK_updateLockedFund_self cfg a s2
    · refine collatOK_updateLockedFund_ne cfg ha ?_
      have hc := h.collat a
      simp only [collatOK] at hc ⊢
      rw [activeCommits_ainsert_ne (fun hc2 => ha hc2.symm)]
      exact hc
  · intro e he
    rw [updateLockedFund_committers] at he
    rw [updateLockedFund_lockPeriods, hlp2]
    by_cases hk : (e.2.id, e.2.commit) = (who, hash)
    · rw [hk, alookup_ainsert_self]
      rfl
    · rw [alookup_ainsert_ne hk]
      exact h.backed e he
  · intro e he
    rw [updateLockedFund_committers] at he
    exact h.chash e he
  · intro e he
    rw [updateLockedFund_lockPeriods, hlp2] at he
    rcases mem_ainsert.mp he with h1 | h1
    · subst h1
      exact le_refl _
    · exact h.periodLB e h1.1
  · intro e he
    rw [updateLockedFund_lockPeriods, hlp2] at he
    rcases mem_ainsert.mp he with h1 | h1
    · subst h1
      exact le_refl _
    · exact le_trans (h.beginLE e h1.1) hle

theorem wf_reveal_insert {cfg : Config} {now : BlockNumber} {s : State}
    (who : AccountId) (name : Name) (h : WF cfg now s)
    (hlp : (alookup (who, cfg.hashOf who name) s.lockPeriods).isSome) :
    WF cfg now
      { s with committers := ainsert name ⟨who, cfg.hashOf who name⟩ s.committers } := by
  refine ⟨h.nodupLP, ?_, ?_, ?_, ?_, h.periodLB, h.beginLE⟩
  · exact nodup_keys_ainsert _ h.nodupCM
  · intro a
    have hc := h.collat a
    simpa only [collatOK] using hc
  · intro e he
    rcases mem_ainsert.mp he with h1 | h1
    · subst h1
      exact hlp
    · exact h.backed e h1.1
  · intro e he
    rcases mem_ainsert.mp he with h1 | h1
    · subst h1
      rfl
    · exact h.chash e h1.1

theorem wf_renew {cfg : Config} {now now' : BlockNumber} {s : State}
    {cm : Committer} {lp : LockPeriod} (h : WF cfg now s) (hle : now ≤ now')
    (hlp : alookup (cm.id, cm.commit) s.lockPeriods = some lp) :
    WF cfg now'
      { s with lockPeriods := ainsert (cm.id, cm.commit) ⟨lp.begin, now' + cfg.registerPeriod⟩ s.lockPeriods } := by
  have hmem : ((cm.id, cm.commit), lp) ∈ s.lockPeriods := alookup_mem hlp
  have hbegin : lp.begin ≤ now := h.beginLE _ hmem
  refine ⟨?_, h.nodupCM, ?_, ?_, h.chash, ?_, ?_⟩
  · exact nodup_keys_ainsert _ h.nodupLP
  · intro a
    have hc := h.collat a
    simp only [collatOK] at hc ⊢
    by_cases ha : cm.id = a
    · subst ha
      rw [activeCommits_ainsert_self,
        ← activeCommits_aremove_some h.nodupLP hlp]
      exact hc
    · rw [activeCommits_ainsert_ne ha]
      exact hc
  · intro e he
    by_cases hk : (e.2.id, e.2.commit) = (cm.id, cm.commit)
    · rw [hk, alookup_ainsert_self]
      rfl
    · rw [alookup_ainsert_ne hk]
      exact h.backed e he
  · intro e he
    rcases mem_ainsert.mp he with h1 | h1
    · subst h1
      show lp.begin + cfg.registerPeriod ≤ now' + cfg.registerPeriod
      exact Nat.add_le_add_right (le_trans hbegin hle) _
    · exact h.periodLB e h1.1
  · intro e he
    rcases mem_ainsert.mp he with h1 | h1
    · subst h1
      show lp.begin ≤ now'
      exact le_trans hbegin hle
    · exact le_trans (h.beginLE e h1.1) hle

theorem wf_unregister {cfg : Config} {now : BlockNumber} {s : State}
    {name : Name} {cm : Committer} (hinj : HashInj cfg) (h : WF cfg now s)
    (hcm : alookup name s.committers = some cm) :
    WF cfg now
      (updateLockedFund cfg cm.id
        { s with lockPeriods := aremove (cm.id, cm.commit) s.lockPeriods,
                 committers := aremove name s.committers }) := by
  set s2 : State :=
    { s with lockPeriods := aremove (cm.id, cm.commit) s.lockPeriods,
             committers := aremove name s.committers } with hs2
  have hlp2 : s2.lockPeriods = aremove (cm.id, cm.commit) s.lockPeriods := rfl
  have hcm2 : s2.committers = aremove name s.committers := rfl
  have hcmmem : (name, cm) ∈ s.committers := alookup_mem hcm
  refine ⟨?_, ?_, ?_, ?_, ?_, ?_, ?_⟩
  · rw [updateLockedFund_lockPeriods, hlp2]
    exact nodup_keys_aremove h.nodupLP
  · rw [updateLockedFund_committers, hcm2]
    exact nodup_keys_aremove h.nodupCM
  · intro a
    by_cases ha : a = cm.id
    · subst ha
      exact collatOK_updateLockedFund_self cfg _ _
    · refine collatOK_updateLockedFund_ne cfg ha ?_
      have hc := h.collat a
      simp only [collatOK] at hc ⊢
      rw [activeCommits_aremove_ne (fun hc2 => ha hc2.symm)]
      exact hc
  · intro e he
    rw [updateLockedFund_committers, hcm2] at he
    rw [updateLockedFund_lockPeriods, hlp2]
    rcases mem_aremove.mp he with ⟨hmem, hne⟩
    by_cases hk : (e.2.id, e.2.commit) = (cm.id, cm.commit)
    · exfalso
      have h1 : e.2.commit = cfg.hashOf e.2.id e.1 := h.chash e hmem
      have h2 : cm.commit = cfg.hashOf cm.id name := h.chash (name, cm) hcmmem
      have hid : e.2.id = cm.id := congrArg Prod.fst hk
      have hcomm : e.2.commit = cm.commit := congrArg Prod.snd hk
      have : cfg.hashOf cm.id e.1 = cfg.hashOf cm.id name := by
        rw [← hid, ← h1, hcomm, h2, hid]
      exact hne (hinj _ _ _ this)
    · rw [alookup_aremove_ne hk]
      exact h.backed e hmem
  · intro e he
    rw [updateLockedFund_committers, hcm2] at he
    exact h.chash e (mem_aremove.mp he).1
  · intro e he
    rw [updateLockedFund_lockPeriods, hlp2] at he
    exact h.periodLB e (mem_aremove.mp he).1
  · intro e he
    rw [updateLockedFund_lockPeriods, hlp2] at he
    exact h.beginLE e (mem_aremove.mp he).1

/-! ### The finalization sweep, pass A -/

theorem eq_of_mem_nodup_keys {α β : Type} {l : List (α × β)}
    (hnd : (l.map Prod.fst).Nodup) {e e' : α × β} (he : e ∈ l) (he' : e' ∈ l)
    (h1 : e.1 = e'.1) : e = e' :=
  List.inj_on_of_nodup_map hnd he he' h1

theorem mem_expiredEntries {now : BlockNumber}
    {e : (AccountId × Hash) × LockPeriod} :
    ∀ {l}, e ∈ expiredEntries now l ↔ e ∈ l ∧ e.2.end_ ≤ now := by
  intro l
  induction l with
  | nil => simp [expiredEntries]
  | cons x t ih =>
      simp only [expiredEntries]
      by_cases hx : x.2.end_ ≤ now
      · simp only [if_pos hx, List.mem_cons, ih]
        constructor
        · rintro (h | ⟨h1, h2⟩)
          · exact ⟨Or.inl h, h ▸ hx⟩
          · exact ⟨Or.inr h1, h2⟩
        · rintro ⟨h1 | h1, h2⟩
          · exact Or.inl h1
          · exact Or.inr ⟨h1, h2⟩
      · simp only [if_neg hx, ih, List.mem_cons]
        constructor
        · rintro ⟨h1, h2⟩
          exact ⟨Or.inr h1, h2⟩
        · rintro ⟨h1 | h1, h2⟩
          · subst h1; exact absurd h2 hx
          · exact ⟨h1, h2⟩

theorem removeExpiredCommits_eq (cfg : Config) (now : BlockNumber) (s : State) :
    removeExpiredCommits cfg now s =
      (((expiredEntries now s.lockPeriods).map
          (fun e => Committer.mk e.1.1 e.1.2)).foldl (expireStep cfg) s,
        (expiredEntries now s.lockPeriods).map (fun e => Committer.mk e.1.1 e.1.2)) :=
  rfl

theorem passA_lockPeriods (cfg : Config) :
    ∀ (E : List Committer) (s : State),
      (E.foldl (expireStep cfg) s).lockPeriods =
        E.foldl (fun l c => aremove (c.id, c.commit) l) s.lockPeriods := by
  intro E
  induction E with
  | nil => intro s; rfl
  | cons c t ih =>
      intro s
      simp only [List.foldl_cons, ih]
      congr 1
      simp only [expireStep, updateLockedFund_lockPeriods]

theorem passA_committers (cfg : Config) :
    ∀ (E : List Committer) (s : State),
      (E.foldl (expireStep cfg) s).committers = s.committers := by
  intro E
  induction E with
  | nil => intro s; rfl
  | cons c t ih =>
      intro s
      simp only [List.foldl_cons, ih]
      simp only [expireStep, updateLockedFund_committers]

theorem mem_foldl_aremove :
    ∀ (E : List Committer) (l : List ((AccountId × Hash) × LockPeriod)) (e),
      e ∈ E.foldl (fun l c => aremove (c.id, c.commit) l) l ↔
        e ∈ l ∧ ∀ c ∈ E, e.1 ≠ (c.id, c.commit) := by
  intro E
  induction E with
  | nil => intro l e; simp
  | cons c t ih =>
      intro l e
      simp only [List.foldl_cons, ih, mem_aremove, List.mem_cons]
      constructor
      · rintro ⟨⟨h1, h2⟩, h3⟩
        refine ⟨h1, ?_⟩
        rintro c' (hc | hc)
        · subst hc; exact h2
        · exact h3 c' hc
      · rintro ⟨h1, h2⟩
        exact ⟨⟨h1, h2 c (Or.inl rfl)⟩, fun c' hc => h2 c' (Or.inr hc)⟩

theorem foldl_aremove_sublist :
    ∀ (E : List Committer) (l : List ((AccountId × Hash) × LockPeriod)),
      List.Sublist (E.foldl (fun l c => aremove (c.id, c.commit) l) l) l := by
  intro E
  induction E with
  | nil => intro l; simp
  | cons c t ih =>
      intro l
      simp only [List.foldl_cons]
      exact (ih _).trans (aremove_sublist _ l)

theorem passA_collat (cfg : Config) :
    ∀ (E : List Committer) (s : State),
      (∀ a, a ∉ E.map Committer.id → collatOK cfg a s) →
      ∀ a, collatOK cfg a (E.foldl (expireStep cfg) s) := by
  intro E
  induction E with
  | nil =>
      intro s h a
      exact h a (by simp)
  | cons c t ih =>
      intro s h a
      simp only [List.foldl_cons]
      refine ih _ ?_ a
      intro b hb
      by_cases hbc : b = c.id
      · subst hbc
        exact collatOK_updateLockedFund_self cfg _ _
      · have hbs : collatOK cfg b s := by
          refine h b ?_
          simp only [List.map_cons, List.mem_cons]
          rintro (hc | hc)
          · exact hbc hc
          · exact hb hc
        refine collatOK_updateLockedFund_ne cfg hbc ?_
        simp only [collatOK] at hbs ⊢
        rw [activeCommits_aremove_ne (fun hc2 => hbc hc2.symm)]
        exact hbs

/-! ### The finalization sweep, pass B -/

theorem sweepNames_lockPeriods :
    ∀ (E : List Committer) (s : State) (evs : List Event),
      (sweepNames E s evs).1.lockPeriods = s.lockPeriods := by
  intro E
  induction E with
  | nil => intro s evs; rfl
  | cons c t ih =>
      intro s evs
      simp only [sweepNames]
      cases hn : associatedName s c.id c.commit with
      | none => exact ih s evs
      | some name => exact ih _ _

theorem sweepNames_locks :
    ∀ (E : List Committer) (s : State) (evs : List Event),
      (sweepNames E s evs).1.locks = s.locks := by
  intro E
  induction E with
  | nil => intro s evs; rfl
  | cons c t ih =>
      intro s evs
      simp only [sweepNames]
      cases hn : associatedName s c.id c.commit with
      | none => exact ih s evs
      | some name => exact ih _ _

theorem sweepNames_committers_mem :
    ∀ (E : List Committer) (s : State) (evs : List Event)
      (e : Name × Committer), e ∈ (sweepNames E s evs).1.committers →
        e ∈ s.committers := by
  intro E
  induction E with
  | nil => intro s evs e h; exact h
  | cons c t ih =>
      intro s evs e h
      simp only [sweepNames] at h
      cases hn : associatedName s c.id c.commit with
      | none =>
          rw [hn] at h
          exact ih s evs e h
      | some name =>
          rw [hn] at h
          exact (mem_aremove.mp (ih _ _ e h)).1

theorem sweepNames_nodupCM :
    ∀ (E : List Committer) (s : State) (evs : List Event),
      (s.committers.map Prod.fst).Nodup →
      ((sweepNames E s evs).1.committers.map Prod.fst).Nodup := by
  intro E
  induction E with
  | nil => intro s evs h; exact h
  | cons c t ih =>
      intro s evs h
      simp only [sweepNames]
      cases hn : associatedName s c.id c.commit with
      | none => exact ih s evs h
      | some name => exact ih _ _ (nodup_keys_aremove h)

theorem sweepNames_events :
    ∀ (E : List Committer) (s : State) (evs : List Event)
      (ev : Event), ev ∈ (sweepNames E s evs).2 →
        ev ∈ evs ∨ ∃ nm, ev = Event.NameFreed nm := by
  intro E
  induction E with
  | nil => intro s evs ev h; exact Or.inl h
  | cons c t ih =>
      intro s evs ev h
      simp only [sweepNames] at h
      cases hn : associatedName s c.id c.commit with
      | none =>
          rw [hn] at h
          exact ih s evs ev h
      | some name =>
          rw [hn] at h
          rcases ih _ _ ev h with h1 | h1
          · rcases List.mem_append.mp h1 with h2 | h2
            · exact Or.inl h2
            · rcases List.mem_singleton.mp h2 with h3
              exact Or.inr ⟨name, h3⟩
          · exact Or.inr h1

theorem associatedName_none {s : State} {id : AccountId} {commit : Hash}
    (h : associatedName s id commit = none) :
    ∀ x ∈ s.committers, x.2 ≠ Committer.mk id commit := by
  intro x hx
  simp only [associatedName, Option.map_eq_none', List.find?_eq_none,
    decide_eq_true_eq] at h
  exact h x hx

theorem associatedName_some {s : State} {id : AccountId} {commit : Hash}
    {nm : Name} (h : associatedName s id commit = some nm) :
    ∃ x, x ∈ s.committers ∧ x.1 = nm ∧ x.2 = Committer.mk id commit := by
  simp only [associatedName, Option.map_eq_some'] at h
  rcases h with ⟨x, hx, h1⟩
  refine ⟨x, List.mem_of_find?_eq_some hx, h1, ?_⟩
  have h2 := List.find?_some hx
  simpa [decide_eq_true_eq] using h2

theorem commUnique_aremove {l : List (Name × Committer)} (h : CommUnique l)
    (nm : Name) : CommUnique (aremove nm l) := by
  intro x hx y hy hxy
  exact h x (mem_aremove.mp hx).1 y (mem_aremove.mp hy).1 hxy

theorem sweepNames_removes :
    ∀ (E : List Committer) (s : State) (evs : List Event),
      CommUnique s.committers →
      ∀ c ∈ E, ∀ x ∈ (sweepNames E s evs).1.committers, x.2 ≠ c := by
  intro E
  induction E with
  | nil => intro s evs _ c hc; simp at hc
  | cons c0 t ih =>
      intro s evs hu c hc x hx
      simp only [sweepNames] at hx
      rcases List.mem_cons.mp hc with hc1 | hc1
      · subst hc1
        cases hn : associatedName s c.id c.commit with
        | none =>
            rw [hn] at hx
            exact associatedName_none hn x (sweepNames_committers_mem t s evs x hx)
        | some name =>
            rw [hn] at hx
            rcases associatedName_some hn with ⟨f, hf, hf1, hf2⟩
            have hxs : x ∈ aremove name s.committers :=
              sweepNames_committers_mem t _ _ x hx
            rcases mem_aremove.mp hxs with ⟨hxmem, hxne⟩
            intro hxc
            have hxf : x = f := hu x hxmem f hf (by rw [hxc, hf2])
            exact hxne (hxf ▸ hf1)
      · cases hn : associatedName s c0.id c0.commit with
        | none =>
            rw [hn] at hx
            exact ih s evs hu c hc1 x hx
        | some name =>
            rw [hn] at hx
            exact ih _ _ (commUnique_aremove hu name) c hc1 x hx

theorem commUnique_of_wf {cfg : Config} {now : BlockNumber} {s : State}
    (hinj : HashInj cfg) (h : WF cfg now s) : CommUnique s.committers := by
  intro x hx y hy hxy
  have h1 : x.2.commit = cfg.hashOf x.2.id x.1 := h.chash x hx
  have h2 : y.2.commit = cfg.hashOf y.2.id y.1 := h.chash y hy
  have hid : x.2.id = y.2.id := congrArg Committer.id hxy
  have hcm : x.2.commit = y.2.commit := congrArg Committer.commit hxy
  have hnames : x.1 = y.1 := by
    refine hinj x.2.id x.1 y.1 ?_
    rw [← h1, hcm, h2, hid]
  exact eq_of_mem_nodup_keys h.nodupCM hx hy hnames

/-! ### Characterizing `on_finalize` -/

theorem onFinalize_fst (cfg : Config) (m : BlockNumber) (s : State) :
    (onFinalize cfg m s).1 =
      (sweepNames
        ((expiredEntries m s.lockPeriods).map (fun e => Committer.mk e.1.1 e.1.2))
        (((expiredEntries m s.lockPeriods).map
            (fun e => Committer.mk e.1.1 e.1.2)).foldl (expireStep cfg) s)
        []).1 := rfl

theorem onFinalize_lockPeriods (cfg : Config) (m : BlockNumber) (s : State) :
    (onFinalize cfg m s).1.lockPeriods =
      ((expiredEntries m s.lockPeriods).map
          (fun e => Committer.mk e.1.1 e.1.2)).foldl
        (fun l c => aremove (c.id, c.commit) l) s.lockPeriods := by
  rw [onFinalize_fst, sweepNames_lockPeriods, passA_lockPeriods]

theorem onFinalize_lockPeriods_mem {cfg : Config} {m : BlockNumber} {s : State}
    (hnd : (s.lockPeriods.map Prod.fst).Nodup)
    (e : (AccountId × Hash) × LockPeriod) :
    e ∈ (onFinalize cfg m s).1.lockPeriods ↔
      e ∈ s.lockPeriods ∧ m < e.2.end_ := by
  rw [onFinalize_lockPeriods, mem_foldl_aremove]
  constructor
  · rintro ⟨h1, h2⟩
    refine ⟨h1, ?_⟩
    by_contra hm
    have hle : e.2.end_ ≤ m := Nat.le_of_not_lt hm
    have hc : Committer.mk e.1.1 e.1.2 ∈
        (expiredEntries m s.lockPeriods).map (fun e => Committer.mk e.1.1 e.1.2) :=
      List.mem_map.mpr ⟨e, mem_expiredEntries.mpr ⟨h1, hle⟩, rfl⟩
    exact h2 _ hc rfl
  · rintro ⟨h1, h2⟩
    refine ⟨h1, ?_⟩
    intro c hc
    rcases List.mem_map.mp hc with ⟨e', he', hce⟩
    intro hkey
    have he'mem : e' ∈ s.lockPeriods ∧ e'.2.end_ ≤ m := mem_expiredEntries.mp he'
    have hk : e.1 = e'.1 := by
      rw [hkey, ← hce]
    have hee : e = e' := eq_of_mem_nodup_keys hnd h1 he'mem.1 hk
    rw [hee] at h2
    exact (Nat.not_lt.mpr he'mem.2) h2

theorem onFinalize_lockPeriods_sublist (cfg : Config) (m : BlockNumber)
    (s : State) :
    List.Sublist (onFinalize cfg m s).1.lockPeriods s.lockPeriods := by
  rw [onFinalize_lockPeriods]
  exact foldl_aremove_sublist _ _

theorem onFinalize_committers_mem {cfg : Config} {m : BlockNumber} {s : State}
    {e : Name × Committer} (h : e ∈ (onFinalize cfg m s).1.committers) :
    e ∈ s.committers := by
  rw [onFinalize_fst] at h
  have h1 := sweepNames_committers_mem _ _ _ e h
  rwa [passA_committers] at h1

theorem onFinalize_events {cfg : Config} {m : BlockNumber} {s : State}
    {ev : Event} (h : ev ∈ (onFinalize cfg m s).2) :
    ∃ nm, ev = Event.NameFreed nm := by
  have h2 := sweepNames_events _ _ _ ev h
  rcases h2 with h3 | h3
  · simp at h3
  · exact h3

theorem onFinalize_collat {cfg : Config} {m : BlockNumber} {s : State}
    (h : ∀ a, collatOK cfg a s) :
    ∀ a, collatOK cfg a (onFinalize cfg m s).1 := by
  intro a
  have h1 : ∀ b, collatOK cfg b
      ((((expiredEntries m s.lockPeriods).map
          (fun e => Committer.mk e.1.1 e.1.2)).foldl (expireStep cfg)) s) :=
    passA_collat cfg _ s (fun b _ => h b)
  have h2 := h1 a
  simp only [collatOK] at h2 ⊢
  rw [onFinalize_fst, sweepNames_lockPeriods, sweepNames_locks]
  exact h2

theorem onFinalize_backed {cfg : Config} {now m : BlockNumber} {s : State}
    (hinj : HashInj cfg) (h : WF cfg now s) :
    ∀ e ∈ (onFinalize cfg m s).1.committers,
      ∃ lp, alookup (e.2.id, e.2.commit) (onFinalize cfg m s).1.lockPeriods =
          some lp ∧ m < lp.end_ := by
  intro e he
  have hmem : e ∈ s.committers := onFinalize_committers_mem he
  have hbacked := h.backed e hmem
  rcases Option.isSome_iff_exists.mp hbacked with ⟨lp, hlk⟩
  by_cases hm : lp.end_ ≤ m
  · exfalso
    have hentry : ((e.2.id, e.2.commit), lp) ∈ s.lockPeriods := alookup_mem hlk
    have hcE : Committer.mk e.2.id e.2.commit ∈
        (expiredEntries m s.lockPeriods).map (fun e => Committer.mk e.1.1 e.1.2) :=
      List.mem_map.mpr ⟨((e.2.id, e.2.commit), lp),
        mem_expiredEntries.mpr ⟨hentry, hm⟩, rfl⟩
    have hu : CommUnique
        ((((expiredEntries m s.lockPeriods).map
            (fun e => Committer.mk e.1.1 e.1.2)).foldl (expireStep cfg) s).committers) := by
      rw [passA_committers]
      exact commUnique_of_wf hinj h
    have hne := sweepNames_removes _ _ [] hu _ hcE e (by rw [onFinalize_fst] at he; exact he)
    exact hne rfl
  · have hlt : m < lp.end_ := Nat.lt_of_not_le hm
    have hentry : ((e.2.id, e.2.commit), lp) ∈ s.lockPeriods := alookup_mem hlk
    have hmem2 : ((e.2.id, e.2.commit), lp) ∈ (onFinalize cfg m s).1.lockPeriods :=
      (onFinalize_lockPeriods_mem h.nodupLP _).mpr ⟨hentry, hlt⟩
    have hnd2 : ((onFinalize cfg m s).1.lockPeriods.map Prod.fst).Nodup :=
      h.nodupLP.sublist ((onFinalize_lockPeriods_sublist cfg m s).map Prod.fst)
    exact ⟨lp, alookup_of_mem_nodup hnd2 hmem2, hlt⟩

theorem wf_finalize {cfg : Config} {now now' : BlockNumber} {s : State}
    (hinj : HashInj cfg) (h : WF cfg now s) (hle : now ≤ now') :
    WF cfg now' (onFinalize cfg now' s).1 := by
  refine ⟨?_, ?_, ?_, ?_, ?_, ?_, ?_⟩
  · exact h.nodupLP.sublist ((onFinalize_lockPeriods_sublist cfg now' s).map Prod.fst)
  · rw [onFinalize_fst]
    refine sweepNames_nodupCM _ _ _ ?_
    rw [passA_committers]
    exact h.nodupCM
  · exact onFinalize_collat h.collat
  · intro e he
    rcases onFinalize_backed hinj h e he with ⟨lp, hlk, _⟩
    rw [hlk]
    rfl
  · intro e he
    exact h.chash e (onFinalize_committers_mem he)
  · intro e he
    exact h.periodLB e ((onFinalize_lockPeriods_sublist cfg now' s).mem he)
  · intro e he
    exact le_trans
      (h.beginLE e ((onFinalize_lockPeriods_sublist cfg now' s).mem he)) hle

/-! ### Every reachable state is well-formed -/

theorem reachable_wf {cfg : Config} (hinj : HashInj cfg) :
    ∀ {n : BlockNumber} {s : State}, Reachable cfg n s → WF cfg n s := by
  intro n s h
  induction h with
  | init => exact wf_empty cfg 0
  | step n s n' op hr hle ih =>
      cases op with
      | commit o hash =>
          simp only [applyOp]
          cases hres : commit cfg n' o hash s with
          | error e => exact wf_mono ih hle
          | ok r =>
              rcases commit_ok hres with ⟨who, ho, hr1⟩
              rw [hr1]
              exact wf_commit who hash ih hle
      | reveal o nm =>
          simp only [applyOp]
          cases hres : reveal cfg o nm s with
          | error e => exact wf_mono ih hle
          | ok r =>
              rcases reveal_ok hres with ⟨who, ho, hlp, hr1⟩
              show WF cfg n' r.1
              rw [hr1]
              exact wf_reveal_insert who nm (wf_mono ih hle) hlp
      | renew o nm =>
          simp only [applyOp]
          cases hres : renew cfg n' o nm s with
          | error e => exact wf_mono ih hle
          | ok r =>
              rcases renew_ok hres with ⟨who, cm, lp, ho, hcm, hid, hlp, hr1⟩
              have hr2 : r.1 = { s with lockPeriods := ainsert (cm.id, cm.commit) ⟨lp.begin, n' + cfg.registerPeriod⟩ s.lockPeriods } := by
                rw [hr1]
              show WF cfg n' r.1
              rw [hr2]
              exact wf_renew ih hle hlp
      | unregister o nm =>
          simp only [applyOp]
          cases hres : unregister cfg o nm s with
          | error e => exact wf_mono ih hle
          | ok r =>
              rcases unregister_ok hres with ⟨who, cm, ho, hcm, hid, hlp, hr1⟩
              have hr2 : r.1 = updateLockedFund cfg cm.id { s with lockPeriods := aremove (cm.id, cm.commit) s.lockPeriods, committers := aremove nm s.committers } := by
                rw [hr1, hid]
              show WF cfg n' r.1
              rw [hr2]
              exact wf_unregister hinj (wf_mono ih hle) hcm
      | finalize =>
          simp only [applyOp]
          exact wf_finalize hinj ih hle

theorem hashInj0 : HashInj cfg0 := by
  intro id n1 n2 h
  exact Nat.add_left_cancel h

theorem reach_sA : Reachable cfg0 7 sA :=
  Reachable.step 0 State.empty 7 (Op.commit (some 1) 101) Reachable.init
    (by decide)

theorem reach_sB : Reachable cfg0 8 sB :=
  Reachable.step 7 sA 8 (Op.reveal (some 1) 100) reach_sA (by decide)

theorem reach_sC : Reachable cfg0 9 sC :=
  Reachable.step 8 sB 9 (Op.renew (some 1) 100) reach_sB (by decide)

theorem reach_sD : Reachable cfg0 9 sD :=
  Reachable.step 8 sB 9 (Op.commit (some 2) 102) reach_sB (by decide)

/-! ### Shared reveal-branch helper -/

theorem reveal_incumbent_cases {cfg : Config} {s : State} (who : AccountId)
    (name : Name) {cm : Committer}
    (hlp : (alookup (who, cfg.hashOf who name) s.lockPeriods).isSome)
    (hcm : alookup name s.committers = some cm) :
    reveal cfg (some who) name s =
      if (getLockPeriod s who (cfg.hashOf who name)).begin <
          (getLockPeriod s cm.id cm.commit).begin then
        Except.ok ({ s with committers := ainsert name ⟨who, cfg.hashOf who name⟩ s.committers }, [Event.RegisterSucceeded who name (some cm.id)])
      else Except.error DispatchError.NameAlreadyTaken := by
  simp only [reveal, ensureSigned]
  rw [if_pos hlp]
  simp only [hcm]

theorem reveal_late_error {cfg : Config} {s : State} {who : AccountId}
    {name : Name} {cm : Committer} (now : BlockNumber)
    (hlp : (alookup (who, cfg.hashOf who name) s.lockPeriods).isSome)
    (hcm : alookup name s.committers = some cm)
    (hle : (getLockPeriod s cm.id cm.commit).begin ≤
      (getLockPeriod s who (cfg.hashOf who name)).begin) :
    reveal cfg (some who) name s = Except.error DispatchError.NameAlreadyTaken ∧
    applyOp cfg now (Op.reveal (some who) name) s = s := by
  have h1 : reveal cfg (some who) name s =
      Except.error DispatchError.NameAlreadyTaken := by
    rw [reveal_incumbent_cases who name hlp hcm, if_neg (Nat.not_lt.mpr hle)]
  refine ⟨h1, ?_⟩
  simp only [applyOp, h1]

/-! ### The claims -/

/-- C1 (counterexample): a straight commit (block 7) then reveal (block 8)
leaves `LockPeriods[1, hash_of(1, name)]` present and the lock on account 1
at `FUND_TO_LOCK = 57` — the claim said the reveal removes the commit row
and releases the lock to zero. -/
theorem C1_counterexample :
    (reveal cfg0 (some 1) 100 sA).isOk = true ∧
    alookup (1, 101) sB.lockPeriods = some ⟨7, 102⟩ ∧
    alookup 1 sB.locks = some 57 := by decide

/-- C1 (amended): a successful `reveal` leaves `LockPeriods` and the
currency locks completely unchanged — the commit row is never consumed; it
keeps backing the ownership. -/
theorem C1_reveal_keeps_commit_row {cfg : Config} {o : Origin} {name : Name}
    {s : State} {r : State × List Event}
    (h : reveal cfg o name s = Except.ok r) :
    r.1.lockPeriods = s.lockPeriods ∧ r.1.locks = s.locks := by
  rcases reveal_ok h with ⟨who, _, _, hr1⟩
  rw [hr1]
  exact ⟨rfl, rfl⟩

/-- C1 (witness): the amended theorem applied to the straight
commit-then-reveal scenario. -/
theorem C1_witness :
    reveal cfg0 (some 1) 100 sA =
      Except.ok (sB, [Event.RegisterSucceeded 1 100 none]) ∧
    (sB.lockPeriods = sA.lockPeriods ∧ sB.locks = sA.locks) :=
  ⟨by decide,
    @C1_reveal_keeps_commit_row cfg0 (some 1) 100 sA
      (sB, [Event.RegisterSucceeded 1 100 none]) (by decide)⟩

/-- C2 (counterexample): with name 100 owned by account 1 since block 7 and
account 2 holding a matching commit from block 9, the reveal of account 2 does
not succeed with a `RevealDiscredited` event: it fails with the
`NameAlreadyTaken` error and changes nothing. -/
theorem C2_counterexample :
    reveal cfg0 (some 2) 100 sD = Except.error DispatchError.NameAlreadyTaken ∧
    applyOp cfg0 9 (Op.reveal (some 2) 100) sD = sD := by decide

/-- C2 (amended): when the begin of the incumbent is less than or equal to the
begin of the revealer, `reveal` fails with `NameAlreadyTaken`, emits nothing, and
leaves the whole state — incumbent row, commit row and collateral —
unchanged. -/
theorem C2_late_reveal_is_error {cfg : Config} {s : State} {who : AccountId}
    {name : Name} {cm : Committer} (now : BlockNumber)
    (hlp : (alookup (who, cfg.hashOf who name) s.lockPeriods).isSome)
    (hcm : alookup name s.committers = some cm)
    (hle : (getLockPeriod s cm.id cm.commit).begin ≤
      (getLockPeriod s who (cfg.hashOf who name)).begin) :
    reveal cfg (some who) name s = Except.error DispatchError.NameAlreadyTaken ∧
    applyOp cfg now (Op.reveal (some who) name) s = s :=
  reveal_late_error now hlp hcm hle

/-- C2 (witness): the amended theorem applied to the late-reveal scenario
`sD`. -/
theorem C2_witness :
    ((alookup (2, cfg0.hashOf 2 100) sD.lockPeriods).isSome = true ∧
     alookup 100 sD.committers = some ⟨1, 101⟩ ∧
     (getLockPeriod sD 1 101).begin ≤
       (getLockPeriod sD 2 (cfg0.hashOf 2 100)).begin) ∧
    (reveal cfg0 (some 2) 100 sD = Except.error DispatchError.NameAlreadyTaken ∧
     applyOp cfg0 9 (Op.reveal (some 2) 100) sD = sD) :=
  ⟨⟨by decide, by decide, by decide⟩,
    @C2_late_reveal_is_error cfg0 sD 2 100 ⟨1, 101⟩ 9
      (by decide) (by decide) (by decide)⟩

/-- C3: in every reachable state — i.e. after every transaction and every
finalization sweep — the lock stored for an account equals
`FUND_TO_LOCK * active_commits`, collapsing to no lock at zero commits. -/
theorem C3_collateral_invariant {cfg : Config} {n : BlockNumber} {s : State}
    (hinj : HashInj cfg) (h : Reachable cfg n s) (a : AccountId) :
    alookup a s.locks =
      if 0 < activeCommits a s.lockPeriods then
        some (cfg.fundToLock * activeCommits a s.lockPeriods)
      else none :=
  (reachable_wf hinj h).collat a

/-- C3 (witness): the collateral invariant evaluated on the reachable state
`sA` for account 1. -/
theorem C3_witness :
    (HashInj cfg0 ∧ Reachable cfg0 7 sA) ∧
    alookup 1 sA.locks =
      (if 0 < activeCommits 1 sA.lockPeriods then
        some (cfg0.fundToLock * activeCommits 1 sA.lockPeriods)
      else none) :=
  ⟨⟨hashInj0, reach_sA⟩, C3_collateral_invariant hashInj0 reach_sA 1⟩

/-- C4: with an incumbent owner of stored begin `b_old` and a matching
commit of begin `b_new`, the revealer replaces the incumbent exactly when
`b_new < b_old`; at `b_old ≤ b_new` (ties included) the call fails with
`NameAlreadyTaken` and the state — in particular the incumbent row — is
unchanged. -/
theorem C4_earlier_commit_wins {cfg : Config} {s : State} (who : AccountId)
    (name : Name) {cm : Committer} (now : BlockNumber)
    (hcm : alookup name s.committers = some cm)
    (hlp : (alookup (who, cfg.hashOf who name) s.lockPeriods).isSome) :
    ((getLockPeriod s who (cfg.hashOf who name)).begin <
        (getLockPeriod s cm.id cm.commit).begin →
      reveal cfg (some who) name s =
        Except.ok ({ s with committers := ainsert name ⟨who, cfg.hashOf who name⟩ s.committers }, [Event.RegisterSucceeded who name (some cm.id)])) ∧
    ((getLockPeriod s cm.id cm.commit).begin ≤
        (getLockPeriod s who (cfg.hashOf who name)).begin →
      reveal cfg (some who) name s = Except.error DispatchError.NameAlreadyTaken ∧
      applyOp cfg now (Op.reveal (some who) name) s = s) := by
  constructor
  · intro hlt
    rw [reveal_incumbent_cases who name hlp hcm, if_pos hlt]
  · intro hle
    exact reveal_late_error now hlp hcm hle

/-- C4 (witness): the front-running scenario — account 2 owns name 100 with
begin 2, account 1 holds a commit with begin 1, so the reveal of account 1
dislodges account 2. -/
theorem C4_witness :
    (alookup 100 f3.committers = some ⟨2, 102⟩ ∧
     (alookup (1, cfg0.hashOf 1 100) f3.lockPeriods).isSome = true) ∧
    (((getLockPeriod f3 1 (cfg0.hashOf 1 100)).begin <
        (getLockPeriod f3 2 102).begin →
      reveal cfg0 (some 1) 100 f3 =
        Except.ok ({ f3 with committers := ainsert 100 ⟨1, cfg0.hashOf 1 100⟩ f3.committers }, [Event.RegisterSucceeded 1 100 (some 2)])) ∧
     ((getLockPeriod f3 2 102).begin ≤
        (getLockPeriod f3 1 (cfg0.hashOf 1 100)).begin →
      reveal cfg0 (some 1) 100 f3 = Except.error DispatchError.NameAlreadyTaken ∧
      applyOp cfg0 3 (Op.reveal (some 1) 100) f3 = f3)) :=
  ⟨⟨by decide, by decide⟩,
    @C4_earlier_commit_wins cfg0 f3 1 100 ⟨2, 102⟩ 3 (by decide) (by decide)⟩

/-- C5: in any reachable state, after `on_finalize(n)` no `LockPeriods` row
has `end ≤ n` and every remaining ownership row is backed by a surviving
lock period with `end > n` — expired commitments and expired ownerships are
completely garbage collected. -/
theorem C5_expiry_completeness {cfg : Config} {n : BlockNumber} {s : State}
    (hinj : HashInj cfg) (h : Reachable cfg n s) (m : BlockNumber) :
    (∀ e ∈ (onFinalize cfg m s).1.lockPeriods, m < e.2.end_) ∧
    (∀ e ∈ (onFinalize cfg m s).1.committers,
      ∃ lp, alookup (e.2.id, e.2.commit) (onFinalize cfg m s).1.lockPeriods =
          some lp ∧ m < lp.end_) := by
  have hwf := reachable_wf hinj h
  constructor
  · intro e he
    exact ((onFinalize_lockPeriods_mem hwf.nodupLP e).mp he).2
  · exact onFinalize_backed hinj hwf

/-- C5 (witness): the sweep at block 102 over the reachable state `sB`. -/
theorem C5_witness :
    (HashInj cfg0 ∧ Reachable cfg0 8 sB) ∧
    ((∀ e ∈ (onFinalize cfg0 102 sB).1.lockPeriods, 102 < e.2.end_) ∧
     (∀ e ∈ (onFinalize cfg0 102 sB).1.committers,
       ∃ lp, alookup (e.2.id, e.2.commit) (onFinalize cfg0 102 sB).1.lockPeriods =
           some lp ∧ 102 < lp.end_)) :=
  ⟨⟨hashInj0, reach_sB⟩, C5_expiry_completeness hashInj0 reach_sB 102⟩

/-- C6 (counterexample): the amount computation is not a saturating
multiplication — at `FUND_TO_LOCK = 57` and `k = 2^60` commits the product
wraps the u64 balance type instead of saturating. -/
theorem C6_counterexample :
    amountToLockU64 57 (2 ^ 60) ≠ amountToLockSat 57 (2 ^ 60) ∧
    amountToLockU64 57 (2 ^ 60) < 57 * 2 ^ 60 := by decide

/-- C6 (amended): only the count conversion saturates; the multiplication
is unchecked, so the computed amount equals `FUND_TO_LOCK * k` exactly when
that product fits the balance type, and wraps beyond it. -/
theorem C6_no_wrap_in_range (f k : Nat) (h : f * k < U64LIMIT) :
    amountToLockU64 f k = f * k := by
  rcases Nat.eq_zero_or_pos f with hf | hf
  · subst hf
    simp [amountToLockU64, U64LIMIT]
  · have hk : k ≤ U64LIMIT - 1 := by
      have h1 : 1 * k ≤ f * k := Nat.mul_le_mul_right k hf
      rw [Nat.one_mul] at h1
      omega
    have hs : saturatedInto k = k := min_eq_left hk
    rw [amountToLockU64, hs, Nat.mod_eq_of_lt h]

/-- C6 (witness): the amended theorem at `FUND_TO_LOCK = 57`, three
commits. -/
theorem C6_witness : 57 * 3 < U64LIMIT ∧ amountToLockU64 57 3 = 57 * 3 :=
  ⟨by decide, C6_no_wrap_in_range 57 3 (by decide)⟩

/-- C7: in any reachable state, `renew` and `unregister` can only fail with
`NameNotFound`, `NameNotOwned` or `BadOrigin` (the `CommitNotFound` guard
never fires because every ownership row is backed), and they succeed
whenever the caller is the recorded owner. -/
theorem C7_renew_unregister_errors {cfg : Config} {n : BlockNumber}
    {s : State} (hinj : HashInj cfg) (h : Reachable cfg n s)
    (now : BlockNumber) (o : Origin) (name : Name) :
    (∀ e, renew cfg now o name s = Except.error e →
      e = DispatchError.NameNotFound ∨ e = DispatchError.NameNotOwned ∨
        e = DispatchError.BadOrigin) ∧
    (∀ e, unregister cfg o name s = Except.error e →
      e = DispatchError.NameNotFound ∨ e = DispatchError.NameNotOwned ∨
        e = DispatchError.BadOrigin) ∧
    (∀ who cm, o = some who → alookup name s.committers = some cm →
      cm.id = who →
      (∃ r, renew cfg now o name s = Except.ok r) ∧
      (∃ r, unregister cfg o name s = Except.ok r)) := by
  have hwf := reachable_wf hinj h
  refine ⟨?_, ?_, ?_⟩
  · intro e herr
    cases o with
    | none =>
        simp only [renew, ensureSigned] at herr
        injection herr with h1
        exact Or.inr (Or.inr h1.symm)
    | some who =>
        simp only [renew, ensureSigned] at herr
        cases hcm : alookup name s.committers with
        | none =>
            simp only [hcm] at herr
            injection herr with h1
            exact Or.inl h1.symm
        | some cm =>
            simp only [hcm] at herr
            by_cases hid : cm.id = who
            · rw [if_pos hid] at herr
              have hb := hwf.backed (name, cm) (alookup_mem hcm)
              rcases Option.isSome_iff_exists.mp hb with ⟨lp, hlk⟩
              have hlk2 : alookup (cm.id, cm.commit) s.lockPeriods = some lp := hlk
              simp only [hlk2] at herr
              cases herr
            · rw [if_neg hid] at herr
              injection herr with h1
              exact Or.inr (Or.inl h1.symm)
  · intro e herr
    cases o with
    | none =>
        simp only [unregister, ensureSigned] at herr
        injection herr with h1
        exact Or.inr (Or.inr h1.symm)
    | some who =>
        simp only [unregister, ensureSigned] at herr
        cases hcm : alookup name s.committers with
        | none =>
            simp only [hcm] at herr
            injection herr with h1
            exact Or.inl h1.symm
        | some cm =>
            simp only [hcm] at herr
            by_cases hid : cm.id = who
            · rw [if_pos hid] at herr
              have hb := hwf.backed (name, cm) (alookup_mem hcm)
              have hb2 : (alookup (cm.id, cm.commit) s.lockPeriods).isSome = true := hb
              rw [if_pos hb2] at herr
              cases herr
            · rw [if_neg hid] at herr
              injection herr with h1
              exact Or.inr (Or.inl h1.symm)
  · intro who cm ho hcm hid
    subst ho
    have hb := hwf.backed (name, cm) (alookup_mem hcm)
    have hb2 : (alookup (cm.id, cm.commit) s.lockPeriods).isSome = true := hb
    rcases Option.isSome_iff_exists.mp hb with ⟨lp, hlk⟩
    have hlk2 : alookup (cm.id, cm.commit) s.lockPeriods = some lp := hlk
    constructor
    · have hren : renew cfg now (some who) name s =
          Except.ok ({ s with lockPeriods := ainsert (cm.id, cm.commit) ⟨lp.begin, now + cfg.registerPeriod⟩ s.lockPeriods }, []) := by
        simp only [renew, ensureSigned, hcm, if_pos hid, hlk2]
      exact ⟨_, hren⟩
    · have hunr : unregister cfg (some who) name s =
          Except.ok (updateLockedFund cfg who { s with lockPeriods := aremove (cm.id, cm.commit) s.lockPeriods, committers := aremove name s.committers }, [Event.NameFreed name]) := by
        simp only [unregister, ensureSigned, hcm, if_pos hid, if_pos hb2]
      exact ⟨_, hunr⟩

/-- C7 (witness): account 1 owns name 100 in the reachable state `sB`, so
its renew and unregister at block 9 succeed and the error classification
holds. -/
theorem C7_witness :
    (HashInj cfg0 ∧ Reachable cfg0 8 sB) ∧
    ((∀ e, renew cfg0 9 (some 1) 100 sB = Except.error e →
      e = DispatchError.NameNotFound ∨ e = DispatchError.NameNotOwned ∨
        e = DispatchError.BadOrigin) ∧
    (∀ e, unregister cfg0 (some 1) 100 sB = Except.error e →
      e = DispatchError.NameNotFound ∨ e = DispatchError.NameNotOwned ∨
        e = DispatchError.BadOrigin) ∧
    (∀ who cm, (some 1 : Origin) = some who →
      alookup 100 sB.committers = some cm → cm.id = who →
      (∃ r, renew cfg0 9 (some 1) 100 sB = Except.ok r) ∧
      (∃ r, unregister cfg0 (some 1) 100 sB = Except.ok r))) :=
  ⟨⟨hashInj0, reach_sB⟩,
    C7_renew_unregister_errors hashInj0 reach_sB 9 (some 1) 100⟩

/-- C8 (counterexample): commit at 7, reveal at 8, renew at 9 leaves the
stored period `{begin 7, end 104}` with `104 ≠ 7 + 95` — renew breaks the
claimed equality `end = begin + REGISTER_PERIOD`. -/
theorem C8_counterexample :
    alookup (1, 101) sC.lockPeriods = some ⟨7, 104⟩ ∧
    ¬(104 = 7 + cfg0.registerPeriod) := by decide

/-- C8 (amended): in every reachable state each stored period satisfies
`begin + REGISTER_PERIOD ≤ end` (equality holds when freshly committed),
and a successful renew preserves the `begin` of every row while resetting only
`end`. -/
theorem C8_period_lower_bound {cfg : Config} {n : BlockNumber} {s : State}
    (hinj : HashInj cfg) (h : Reachable cfg n s) :
    (∀ e ∈ s.lockPeriods, e.2.begin + cfg.registerPeriod ≤ e.2.end_) ∧
    (∀ now o name r, renew cfg now o name s = Except.ok r →
      ∀ k lp', alookup k r.1.lockPeriods = some lp' →
        ∃ lp, alookup k s.lockPeriods = some lp ∧ lp'.begin = lp.begin) := by
  refine ⟨(reachable_wf hinj h).periodLB, ?_⟩
  intro now o name r hok k lp' hlk'
  rcases renew_ok hok with ⟨who, cm, lp, ho, hcm, hid, hlp, hr1⟩
  have hr2 : r.1 = { s with lockPeriods := ainsert (cm.id, cm.commit) ⟨lp.begin, now + cfg.registerPeriod⟩ s.lockPeriods } := by
    rw [hr1]
  rw [hr2] at hlk'
  by_cases hk : k = (cm.id, cm.commit)
  · subst hk
    rw [alookup_ainsert_self] at hlk'
    injection hlk' with h1
    refine ⟨lp, hlp, ?_⟩
    rw [← h1]
  · rw [alookup_ainsert_ne hk] at hlk'
    exact ⟨lp', hlk', rfl⟩

/-- C8 (witness): the amended invariant evaluated on the renewed reachable
state `sC`. -/
theorem C8_witness :
    (HashInj cfg0 ∧ Reachable cfg0 9 sC) ∧
    ((∀ e ∈ sC.lockPeriods, e.2.begin + cfg0.registerPeriod ≤ e.2.end_) ∧
     (∀ now o name r, renew cfg0 now o name sC = Except.ok r →
       ∀ k lp', alookup k r.1.lockPeriods = some lp' →
         ∃ lp, alookup k sC.lockPeriods = some lp ∧ lp'.begin = lp.begin)) :=
  ⟨⟨hashInj0, reach_sC⟩, C8_period_lower_bound hashInj0 reach_sC⟩

/-- C9 (counterexample): finalizing block 102 over `sA` (one expired,
unrevealed commit) removes the row and the lock but emits no event at all —
in particular no `CommitExpired`, an event the pallet does not even
declare. -/
theorem C9_counterexample :
    (onFinalize cfg0 102 sA).2 = [] ∧
    alookup (1, 101) (onFinalize cfg0 102 sA).1.lockPeriods = none ∧
    alookup 1 (onFinalize cfg0 102 sA).1.locks = none := by decide

/-- C9 (amended): the sweep at block `n` removes every `LockPeriods` row
with `end ≤ n` and recomputes the affected locks, but the only events it
can emit are `NameFreed` for expired commits whose name was revealed; no
per-commit `CommitExpired` event exists. -/
theorem C9_finalize_expired_commits {cfg : Config} {n : BlockNumber}
    {s : State} (hinj : HashInj cfg) (h : Reachable cfg n s)
    (m : BlockNumber) :
    (∀ a hs lp, alookup (a, hs) s.lockPeriods = some lp → lp.end_ ≤ m →
      alookup (a, hs) (onFinalize cfg m s).1.lockPeriods = none) ∧
    (∀ a, collatOK cfg a (onFinalize cfg m s).1) ∧
    (∀ ev ∈ (onFinalize cfg m s).2, ∃ nm, ev = Event.NameFreed nm) := by
  have hwf := reachable_wf hinj h
  refine ⟨?_, onFinalize_collat hwf.collat, fun ev hev => onFinalize_events hev⟩
  intro a hs lp hlk hle
  cases hres : alookup (a, hs) (onFinalize cfg m s).1.lockPeriods with
  | none => rfl
  | some lp' =>
      exfalso
      have hmem := alookup_mem hres
      have h2 := (onFinalize_lockPeriods_mem hwf.nodupLP _).mp hmem
      have h3 : alookup (a, hs) s.lockPeriods = some lp' :=
        alookup_of_mem_nodup hwf.nodupLP h2.1
      rw [hlk] at h3
      injection h3 with h4
      rw [h4] at hle
      exact (Nat.not_lt.mpr hle) h2.2

/-- C9 (witness): the amended theorem applied to `sA` at block 102. -/
theorem C9_witness :
    (HashInj cfg0 ∧ Reachable cfg0 7 sA) ∧
    ((∀ a hs lp, alookup (a, hs) sA.lockPeriods = some lp → lp.end_ ≤ 102 →
      alookup (a, hs) (onFinalize cfg0 102 sA).1.lockPeriods = none) ∧
    (∀ a, collatOK cfg0 a (onFinalize cfg0 102 sA).1) ∧
    (∀ ev ∈ (onFinalize cfg0 102 sA).2, ∃ nm, ev = Event.NameFreed nm)) :=
  ⟨⟨hashInj0, reach_sA⟩, C9_finalize_expired_commits hashInj0 reach_sA 102⟩

/-- C10: in every reachable state, every ownership row in the name map is
backed by a live `LockPeriods` row for its `(id, commit)` — ownership is
never recorded without a commit row behind it. -/
theorem C10_ownership_backed {cfg : Config} {n : BlockNumber} {s : State}
    (hinj : HashInj cfg) (h : Reachable cfg n s) :
    ∀ e ∈ s.committers,
      ∃ lp, alookup (e.2.id, e.2.commit) s.lockPeriods = some lp :=
  fun e he =>
    Option.isSome_iff_exists.mp ((reachable_wf hinj h).backed e he)

/-- C10 (witness): the backing invariant on the reachable post-reveal state
`sB`. -/
theorem C10_witness :
    (HashInj cfg0 ∧ Reachable cfg0 8 sB) ∧
    (∀ e ∈ sB.committers,
      ∃ lp, alookup (e.2.id, e.2.commit) sB.lockPeriods = some lp) :=
  ⟨⟨hashInj0, reach_sB⟩, C10_ownership_backed hashInj0 reach_sB⟩

end VanityRegistry
